import Mathlib

/-!
Verification of the mini_bitcask_rs storage engine (src/bitcask.rs).

The file shallowly embeds the engine: the log file is a list of bytes
(natural numbers), the in-memory `HashMap` index is an association list
with unique keys, machine `u32` casts are explicit `% 2^32`, and fallible
I/O returns `Option` (`none` is the propagated `std::io::Error`).
-/

namespace Bitcask

/-- A byte string (file contents, keys, values). -/
abbrev Bytes := List Nat

/-- `u32` modulus: the `as u32` cast in the source is `· % U32`. -/
def U32 : Nat := 4294967296

/-- `KEY_VAL_COLUMN_LEN` from the source: each length column is 4 bytes. -/
def KEY_VAL_COLUMN_LEN : Nat := 4

/-- `u32::to_be_bytes`: big-endian bytes of a value already reduced mod `2^32`. -/
def be32 (n : Nat) : Bytes :=
  [n / 16777216 % 256, n / 65536 % 256, n / 256 % 256, n % 256]

/-- `u32::from_be_bytes` on a 4-byte buffer. -/
def beDecode (b : Bytes) : Nat :=
  b.getD 0 0 * 16777216 + b.getD 1 0 * 65536 + b.getD 2 0 * 256 + b.getD 3 0

/-- The in-memory key index (`KeyIdx = HashMap<Vec<u8>, (u64, u32)>`),
modelled as an association list with unique keys; `(u64, u32)` is the
(value offset, value length) pair. -/
abbrev KeyIdx := List (Bytes × Nat × Nat)

/-- `HashMap::get`. -/
def idxLookup : KeyIdx → Bytes → Option (Nat × Nat)
  | [], _ => none
  | (k', pl) :: rest, k => if k' = k then some pl else idxLookup rest k

/-- `HashMap::remove`: drops every binding of the key. -/
def idxRemove : KeyIdx → Bytes → KeyIdx
  | [], _ => []
  | (k', pl) :: rest, k =>
      if k' = k then idxRemove rest k else (k', pl) :: idxRemove rest k

/-- `HashMap::insert`: the new binding replaces any old one.  (Iteration
order of a `HashMap` is unspecified; only lookup behaviour and the entry
multiset matter to the properties proved below.) -/
def idxInsert (idx : KeyIdx) (k : Bytes) (pl : Nat × Nat) : KeyIdx :=
  (k, pl) :: idxRemove idx k

/-- The `Log`: contents of its single append-only file.  (The `path`
field and the surrounding file system are modelled separately, for the
merge-path claims, by `FS`/`LogFS` below.) -/
structure Log where
  data : Bytes
deriving DecidableEq

/-- `Log::write_one_entry`: seeks to end of file, writes
`key_len (be32) ++ val_len (be32) ++ key ++ value bytes` (no value bytes
when the computed `val_len` is `0`), and returns `(val_pos, val_len)`
with `val_pos = offset + entry_len - val_len`. -/
def write_one_entry (log : Log) (key : Bytes) (val : Option Bytes) :
    Log × Nat × Nat :=
  let key_len := key.length % U32
  let val_len := (match val with | some v => v.length | none => 0) % U32
  let entry_len := KEY_VAL_COLUMN_LEN * 2 + key_len + val_len
  let offset := log.data.length
  let written := be32 key_len ++ be32 val_len ++ key ++
      (if 0 < val_len then val.getD [] else [])
  let val_pos := offset + entry_len - val_len
  (⟨log.data ++ written⟩, val_pos, val_len)

/-- `Log::read_value`: seeks to `val_pos` and reads exactly `val_len`
bytes; `none` is the I/O error `read_exact` raises on a short read. -/
def read_value (log : Log) (val_pos val_len : Nat) : Option Bytes :=
  if val_pos + val_len ≤ log.data.length then
    some ((log.data.drop val_pos).take val_len)
  else none

/-- The `one_enrty` closure inside `Log::load_memory`: at position `pos`
read the two big-endian length columns and the key, and return
`(key, (value_pos, value_sz_r))` where `value_sz_r` is `none` for a
tombstone (`value_sz == 0`).  `none` is the I/O error a failing
`read_exact` raises. -/
def read_one_entry (data : Bytes) (pos : Nat) :
    Option (Bytes × Nat × Option Nat) :=
  if pos + KEY_VAL_COLUMN_LEN ≤ data.length then
    let ksz := beDecode ((data.drop pos).take 4)
    if pos + KEY_VAL_COLUMN_LEN * 2 ≤ data.length then
      let value_sz := beDecode ((data.drop (pos + 4)).take 4)
      let value_pos := pos + KEY_VAL_COLUMN_LEN * 2 + ksz
      if pos + KEY_VAL_COLUMN_LEN * 2 + ksz ≤ data.length then
        some ((data.drop (pos + 8)).take ksz, value_pos,
          if 0 < value_sz then some value_sz else none)
      else none
    else none
  else none

/-- The `while pos < file_len` loop of `Log::load_memory`.  Every
iteration advances `pos` by at least 8 bytes, so `data.length` iterations
always suffice; the fuel argument only makes the recursion structural and
is irrelevant on every input the loop can actually see. -/
def lmLoop (data : Bytes) : Nat → Nat → KeyIdx → Option KeyIdx
  | 0, pos, idx => if pos < data.length then none else some idx
  | fuel + 1, pos, idx =>
    if pos < data.length then
      match read_one_entry data pos with
      | none => none
      | some (key, value_pos, some v_sz) =>
          lmLoop data fuel (value_pos + v_sz) (idxInsert idx key (value_pos, v_sz))
      | some (key, value_pos, none) =>
          lmLoop data fuel value_pos (idxRemove idx key)
    else some idx

/-- `Log::load_memory`: scan the whole file from byte 0 rebuilding the
index (live entries insert, tombstones remove, in file order). -/
def load_memory (data : Bytes) : Option KeyIdx :=
  lmLoop data data.length 0 []

/-- The store (`struct MiniBitcask`): the index plus the log. -/
structure MiniBitcask where
  key_idx : KeyIdx
  log : Log
deriving DecidableEq

/-- `MiniBitcask::new`, given the bytes already on disk at the opened
path: build the `Log` over them and rebuild the index with
`load_memory`. -/
def MiniBitcask.new (data : Bytes) : Option MiniBitcask :=
  (load_memory data).map fun idx => ⟨idx, ⟨data⟩⟩

/-- `MiniBitcask::set`: append a live entry, then insert the returned
(offset, length) pair into the index. -/
def set (s : MiniBitcask) (key val : Bytes) : MiniBitcask :=
  let r := write_one_entry s.log key (some val)
  ⟨idxInsert s.key_idx key r.2, r.1⟩

/-- `MiniBitcask::get`: index lookup, then `read_value` on a hit.  The
outer `Option` is the `Result`: `none` is an I/O error from
`read_value`. -/
def get (s : MiniBitcask) (key : Bytes) : Option (Option Bytes) :=
  match idxLookup s.key_idx key with
  | some (val_pos, val_len) =>
      match read_value s.log val_pos val_len with
      | some v => some (some v)
      | none => none
  | none => some none

/-- `MiniBitcask::delete`: append a tombstone, then remove the key from
the index. -/
def delete (s : MiniBitcask) (key : Bytes) : MiniBitcask :=
  let r := write_one_entry s.log key none
  ⟨idxRemove s.key_idx key, r.1⟩

/-- The loop body of `MiniBitcask::merge`: for each index entry read the
live value from the old log, append it to the new log and record the new
location in the fresh index.  `none` propagates a `read_value` error. -/
def mergeGo (oldlog : Log) : KeyIdx → Log → KeyIdx → Option (Log × KeyIdx)
  | [], new_log, new_key_idx => some (new_log, new_key_idx)
  | (key, val_pos, val_len) :: rest, new_log, new_key_idx =>
    match read_value oldlog val_pos val_len with
    | none => none
    | some v =>
        let r := write_one_entry new_log key (some v)
        mergeGo oldlog rest r.1 (idxInsert new_key_idx key r.2)

/-- `MiniBitcask::merge` at the single-file level: rewrite the live
entries into a fresh (empty) temporary log and swap log and index.  (The
temporary file is freshly created, as for a store operated in a fresh
directory; the path/rename behaviour is modelled by `mergeFS` below.) -/
def merge (s : MiniBitcask) : Option MiniBitcask :=
  (mergeGo s.log s.key_idx ⟨[]⟩ []).map fun r => ⟨r.2, r.1⟩

/-- A store-level operation: `set` or `delete`. -/
inductive Op where
  | setOp (k v : Bytes)
  | delOp (k : Bytes)
deriving DecidableEq

/-- Run one operation. -/
def applyOp (s : MiniBitcask) : Op → MiniBitcask
  | .setOp k v => set s k v
  | .delOp k => delete s k

/-- A freshly created store over an empty file. -/
def emptyStore : MiniBitcask := ⟨[], ⟨[]⟩⟩

/-- Run a sequence of operations from a given store. -/
def applyOpsFrom (s : MiniBitcask) (ops : List Op) : MiniBitcask :=
  ops.foldl applyOp s

/-- Run a sequence of operations from the fresh store. -/
def applyOps (ops : List Op) : MiniBitcask := applyOpsFrom emptyStore ops

/-- An operation whose key and value fit the 32-bit length columns (the
spec's scope: sizes beyond a 32-bit length field are out of scope). -/
def opInRange : Op → Bool
  | .setOp k v => decide (k.length < U32) && decide (v.length < U32)
  | .delOp k => decide (k.length < U32)

/-- All operations of a sequence are in range. -/
def opsInRange (ops : List Op) : Bool := ops.all opInRange

/-- In-range and additionally every `set` stores a non-empty value. -/
def opGood : Op → Bool
  | .setOp k v => opInRange (.setOp k v) && !v.isEmpty
  | .delOp k => opInRange (.delOp k)

/-- All operations in range with non-empty `set` values. -/
def opsGood (ops : List Op) : Bool := ops.all opGood

/-- The `val.map_or(0, ..) as u32` length computed by `write_one_entry`. -/
def vlen32 (v : Option Bytes) : Nat :=
  (match v with | some v => v.length | none => 0) % U32

/-- The exact byte string `write_one_entry key v` appends. -/
def encodeEntry (k : Bytes) (v : Option Bytes) : Bytes :=
  be32 (k.length % U32) ++ be32 (vlen32 v) ++ k ++
    (if 0 < vlen32 v then v.getD [] else [])

/-- Byte string of a whole sequence of appended entries. -/
def encodeLog : List (Bytes × Option Bytes) → Bytes
  | [] => []
  | (k, v) :: es => encodeEntry k v ++ encodeLog es

/-- Mathematical value length of an optional value (`0` for a delete). -/
def valLen : Option Bytes → Nat
  | some v => v.length
  | none => 0

/-- Bytes of an optional value (`[]` for a delete). -/
def valBytes : Option Bytes → Bytes
  | some v => v
  | none => []

/-- The key of the entry an operation appends, with its optional value. -/
def opEntry : Op → Bytes × Option Bytes
  | .setOp k v => (k, some v)
  | .delOp k => (k, none)

-- ------------------------------------------------------------------
-- Basic lemmas
-- ------------------------------------------------------------------

theorem be32_length (n : Nat) : (be32 n).length = 4 := rfl

theorem beDecode_be32 (n : Nat) (h : n < U32) : beDecode (be32 n) = n := by
  simp only [be32, beDecode, List.getD_cons_zero, List.getD_cons_succ, U32] at *
  omega

theorem idxLookup_insert_self (idx : KeyIdx) (k : Bytes) (pl : Nat × Nat) :
    idxLookup (idxInsert idx k pl) k = some pl := by
  simp [idxInsert, idxLookup]

theorem idxLookup_remove (idx : KeyIdx) (k k' : Bytes) :
    idxLookup (idxRemove idx k) k' = if k' = k then none else idxLookup idx k' := by
  induction idx with
  | nil => by_cases h : k' = k <;> simp [idxRemove, idxLookup, h]
  | cons e rest ih =>
      obtain ⟨a, pl⟩ := e
      by_cases hak : a = k
      · subst hak
        by_cases hk' : k' = a
        · subst hk'
          simp [idxRemove, idxLookup, ih]
        · have h2 : ¬ a = k' := fun e => hk' e.symm
          simp [idxRemove, idxLookup, ih, hk', h2]
      · by_cases hak' : a = k'
        · subst hak'
          simp [idxRemove, idxLookup, hak]
        · simp [idxRemove, idxLookup, hak, hak', ih]

theorem idxLookup_insert_ne (idx : KeyIdx) (k k' : Bytes) (pl : Nat × Nat)
    (h : k' ≠ k) : idxLookup (idxInsert idx k pl) k' = idxLookup idx k' := by
  have hk : ¬ k = k' := fun e => h e.symm
  simp [idxInsert, idxLookup, hk, idxLookup_remove, h]

theorem encodeEntry_some (k v : Bytes) (hv : v.length < U32) :
    encodeEntry k (some v) =
      be32 (k.length % U32) ++ be32 v.length ++ k ++ v := by
  rcases v with _ | ⟨b, bs⟩
  · simp [encodeEntry, vlen32]
  · have hv2 : (bs.length + 1) % U32 = bs.length + 1 := by
      simpa using Nat.mod_eq_of_lt hv
    simp [encodeEntry, vlen32, hv2]

theorem encodeEntry_none (k : Bytes) :
    encodeEntry k none = be32 (k.length % U32) ++ be32 0 ++ k := by
  simp [encodeEntry, vlen32]

theorem encodeEntry_length (k : Bytes) (v : Option Bytes) (hv : valLen v < U32) :
    (encodeEntry k v).length = 8 + k.length + vlen32 v := by
  rcases v with _ | v
  · simp [encodeEntry, vlen32, be32]
    omega
  · rcases v with _ | ⟨b, bs⟩
    · simp [encodeEntry, vlen32, be32]
      omega
    · have hv2 : (bs.length + 1) % U32 = bs.length + 1 := by
        have h3 : (b :: bs).length < U32 := hv
        simpa using Nat.mod_eq_of_lt h3
      simp [encodeEntry, vlen32, be32, hv2]
      omega

theorem write_one_entry_eq (log : Log) (k : Bytes) (v : Option Bytes) :
    write_one_entry log k v =
      (⟨log.data ++ encodeEntry k v⟩, log.data.length + 8 + k.length % U32,
        vlen32 v) := by
  have h : vlen32 v ≤ KEY_VAL_COLUMN_LEN * 2 + k.length % U32 + vlen32 v := by
    omega
  simp [write_one_entry, encodeEntry, vlen32, KEY_VAL_COLUMN_LEN]
  omega

theorem drop_append_left (d e : Bytes) (p : Nat) (h : p ≤ d.length) :
    (d ++ e).drop p = d.drop p ++ e := by
  rw [List.drop_append_eq_append_drop]
  have h0 : p - d.length = 0 := by omega
  rw [h0]
  simp

theorem take_append_left (d e : Bytes) (l : Nat) (h : l ≤ d.length) :
    (d ++ e).take l = d.take l := by
  rw [List.take_append_eq_append_take]
  have h0 : l - d.length = 0 := by omega
  rw [h0]
  simp

/-- Reading at a position/length lying inside `d` is unaffected by bytes
appended after `d` (the log is append-only). -/
theorem read_value_append (d e : Bytes) (p l : Nat) (h : p + l ≤ d.length) :
    read_value ⟨d ++ e⟩ p l = read_value ⟨d⟩ p l := by
  have h1 : p + l ≤ (d ++ e).length := by
    simp only [List.length_append]
    omega
  have h2 : (d ++ e).drop p = d.drop p ++ e := drop_append_left d e p (by omega)
  have h3 : (d.drop p ++ e).take l = (d.drop p).take l := by
    apply take_append_left
    simp only [List.length_drop]
    omega
  simp [read_value, h, h1, h2, h3]
  omega

/-- Reading the suffix `v` of `pre ++ v` back. -/
theorem read_value_at (pre v : Bytes) :
    read_value ⟨pre ++ v⟩ pre.length v.length = some v := by
  have h : pre.length + v.length ≤ (pre ++ v).length := by simp
  simp [read_value, h, List.drop_left]

theorem read_value_of_eq_append (d pre v : Bytes) (p : Nat)
    (hd : d = pre ++ v) (hp : p = pre.length) :
    read_value ⟨d⟩ p v.length = some v := by
  subst hd
  subst hp
  exact read_value_at pre v

-- ------------------------------------------------------------------
-- Rebuilding the index from an encoded entry sequence
-- ------------------------------------------------------------------

/-- An entry whose key and value fit the 32-bit length columns. -/
def entryInRange (e : Bytes × Option Bytes) : Bool :=
  decide (e.1.length < U32) && decide (valLen e.2 < U32)

/-- All entries of a sequence are in range. -/
def entriesInRange (es : List (Bytes × Option Bytes)) : Bool :=
  es.all entryInRange

/-- Reference fold: one `load_memory` loop iteration per encoded entry,
in file order, tracking the byte cursor. -/
def replayIdx : Nat → KeyIdx → List (Bytes × Option Bytes) → KeyIdx
  | _, idx, [] => idx
  | pos, idx, (k, v) :: es =>
      let value_pos := pos + 8 + k.length % U32
      if 0 < vlen32 v then
        replayIdx (value_pos + vlen32 v) (idxInsert idx k (value_pos, vlen32 v)) es
      else replayIdx value_pos (idxRemove idx k) es

theorem encodeLog_append (a b : List (Bytes × Option Bytes)) :
    encodeLog (a ++ b) = encodeLog a ++ encodeLog b := by
  induction a with
  | nil => simp [encodeLog]
  | cons e rest ih =>
      obtain ⟨k, v⟩ := e
      simp [encodeLog, ih]

theorem encodeEntry_length_ge (k : Bytes) (v : Option Bytes) :
    8 ≤ (encodeEntry k v).length := by
  simp [encodeEntry, be32]

theorem encodeLog_length_ge (es : List (Bytes × Option Bytes)) :
    es.length ≤ (encodeLog es).length := by
  induction es with
  | nil => simp [encodeLog]
  | cons e rest ih =>
      obtain ⟨k, v⟩ := e
      have h8 := encodeEntry_length_ge k v
      simp only [encodeLog, List.length_cons, List.length_append]
      omega

theorem entriesInRange_append (a b : List (Bytes × Option Bytes)) :
    entriesInRange (a ++ b) = (entriesInRange a && entriesInRange b) := by
  simp [entriesInRange, List.all_append]

/-- Decoding one entry at the start of its encoding inside the file. -/
theorem read_one_entry_encode (data rest : Bytes) (k : Bytes) (v : Option Bytes)
    (hk : k.length < U32) (hv : valLen v < U32) :
    read_one_entry (data ++ (encodeEntry k v ++ rest)) data.length =
      some (k, data.length + 8 + k.length,
            if 0 < vlen32 v then some (vlen32 v) else none) := by
  have hk' : k.length % U32 = k.length := Nat.mod_eq_of_lt hk
  have hvlt : vlen32 v < U32 := Nat.mod_lt _ (by decide)
  have hel : (encodeEntry k v).length = 8 + k.length + vlen32 v :=
    encodeEntry_length k v hv
  have hD : (data ++ (encodeEntry k v ++ rest)).length =
      data.length + (8 + k.length + vlen32 v) + rest.length := by
    simp [hel]
    omega
  have e1 : (data ++ (encodeEntry k v ++ rest)).drop data.length =
      encodeEntry k v ++ rest := List.drop_left' rfl
  have e2 : (encodeEntry k v ++ rest).take 4 = be32 (k.length % U32) := by
    rw [encodeEntry]
    rw [List.append_assoc, List.append_assoc, List.append_assoc]
    exact List.take_left' (be32_length _)
  have e3 : (data ++ (encodeEntry k v ++ rest)).drop (data.length + 4) =
      be32 (vlen32 v) ++ (k ++ ((if 0 < vlen32 v then v.getD [] else []) ++ rest)) := by
    have hre : data ++ (encodeEntry k v ++ rest) =
        (data ++ be32 (k.length % U32)) ++
          (be32 (vlen32 v) ++ (k ++ ((if 0 < vlen32 v then v.getD [] else []) ++ rest))) := by
      simp [encodeEntry]
    rw [hre]
    apply List.drop_left'
    simp [be32_length]
  have e3t : (be32 (vlen32 v) ++
      (k ++ ((if 0 < vlen32 v then v.getD [] else []) ++ rest))).take 4 =
      be32 (vlen32 v) := List.take_left' (be32_length _)
  have e4 : (data ++ (encodeEntry k v ++ rest)).drop (data.length + 8) =
      k ++ ((if 0 < vlen32 v then v.getD [] else []) ++ rest) := by
    have hre : data ++ (encodeEntry k v ++ rest) =
        (data ++ be32 (k.length % U32) ++ be32 (vlen32 v)) ++
          (k ++ ((if 0 < vlen32 v then v.getD [] else []) ++ rest)) := by
      simp [encodeEntry]
    rw [hre]
    apply List.drop_left'
    simp [be32_length]
  have e4t : (k ++ ((if 0 < vlen32 v then v.getD [] else []) ++ rest)).take k.length =
      k := List.take_left' rfl
  have c1 : data.length + 4 ≤ (data ++ (encodeEntry k v ++ rest)).length := by
    rw [hD]; omega
  have c2 : data.length + 4 * 2 ≤ (data ++ (encodeEntry k v ++ rest)).length := by
    rw [hD]; omega
  have c3 : data.length + 4 * 2 + k.length ≤
      (data ++ (encodeEntry k v ++ rest)).length := by
    rw [hD]; omega
  simp only [read_one_entry, KEY_VAL_COLUMN_LEN, e1, e2, e3, e3t, e4, e4t, hk',
    beDecode_be32 _ hk, beDecode_be32 _ hvlt, if_pos c1, if_pos c2, if_pos c3]

theorem lmLoop_step_insert (data : Bytes) (f pos : Nat) (idx : KeyIdx)
    (key : Bytes) (value_pos v_sz : Nat)
    (hp : pos < data.length)
    (hr : read_one_entry data pos = some (key, value_pos, some v_sz)) :
    lmLoop data (f + 1) pos idx =
      lmLoop data f (value_pos + v_sz) (idxInsert idx key (value_pos, v_sz)) := by
  simp [lmLoop, hp, hr]

theorem lmLoop_step_remove (data : Bytes) (f pos : Nat) (idx : KeyIdx)
    (key : Bytes) (value_pos : Nat)
    (hp : pos < data.length)
    (hr : read_one_entry data pos = some (key, value_pos, none)) :
    lmLoop data (f + 1) pos idx =
      lmLoop data f value_pos (idxRemove idx key) := by
  simp [lmLoop, hp, hr]

/-- The recovery scan over `data ++ encodeLog es`, started at the end of
`data`, replays one loop iteration per entry in file order (provided at
least `es.length` iterations of fuel, which `load_memory` always has). -/
theorem lmLoop_encode (es : List (Bytes × Option Bytes)) :
    ∀ (fuel : Nat) (data : Bytes) (idx : KeyIdx),
      entriesInRange es = true → es.length ≤ fuel →
      lmLoop (data ++ encodeLog es) fuel data.length idx =
        some (replayIdx data.length idx es) := by
  induction es with
  | nil =>
      intro fuel data idx _ _
      cases fuel <;> simp [lmLoop, replayIdx, encodeLog]
  | cons e rest ih =>
      obtain ⟨k, v⟩ := e
      intro fuel data idx hir hfuel
      have hk : k.length < U32 ∧ valLen v < U32 := by
        have h1 : entryInRange (k, v) = true := by
          simp [entriesInRange] at hir
          exact hir.1
        simpa [entryInRange] using h1
      have hrest : entriesInRange rest = true := by
        simp [entriesInRange] at hir ⊢
        exact hir.2
      have hk' : k.length % U32 = k.length := Nat.mod_eq_of_lt hk.1
      cases fuel with
      | zero => simp at hfuel
      | succ f =>
          have hf : rest.length ≤ f := by
            simp at hfuel
            omega
          have hel : (encodeEntry k v).length = 8 + k.length + vlen32 v :=
            encodeEntry_length k v hk.2
          have hsplit : data ++ encodeLog ((k, v) :: rest) =
              data ++ (encodeEntry k v ++ encodeLog rest) := by
            simp [encodeLog]
          have hpos : data.length <
              (data ++ (encodeEntry k v ++ encodeLog rest)).length := by
            simp only [List.length_append, hel]
            omega
          have hread := read_one_entry_encode data (encodeLog rest) k v hk.1 hk.2
          have hnext : (data ++ encodeEntry k v).length =
              data.length + 8 + k.length + vlen32 v := by
            simp only [List.length_append, hel]
            omega
          have hassoc : data ++ (encodeEntry k v ++ encodeLog rest) =
              (data ++ encodeEntry k v) ++ encodeLog rest := by
            simp
          rw [hsplit]
          by_cases hvz : 0 < vlen32 v
          · have hread' : read_one_entry (data ++ (encodeEntry k v ++ encodeLog rest))
                data.length = some (k, data.length + 8 + k.length, some (vlen32 v)) := by
              rw [hread, if_pos hvz]
            rw [lmLoop_step_insert _ f data.length idx k
              (data.length + 8 + k.length) (vlen32 v) hpos hread']
            rw [hassoc,
              show data.length + 8 + k.length + vlen32 v =
                (data ++ encodeEntry k v).length from hnext.symm]
            rw [ih f (data ++ encodeEntry k v)
              (idxInsert idx k (data.length + 8 + k.length, vlen32 v)) hrest hf]
            simp only [replayIdx, hk']
            rw [if_pos hvz, hnext]
          · have hzero : vlen32 v = 0 := by omega
            have hread' : read_one_entry (data ++ (encodeEntry k v ++ encodeLog rest))
                data.length = some (k, data.length + 8 + k.length, none) := by
              rw [hread, if_neg hvz]
            rw [lmLoop_step_remove _ f data.length idx k
              (data.length + 8 + k.length) hpos hread']
            rw [hassoc,
              show data.length + 8 + k.length = (data ++ encodeEntry k v).length from by
                rw [hnext, hzero]
                omega]
            rw [ih f (data ++ encodeEntry k v) (idxRemove idx k) hrest hf]
            simp only [replayIdx, hk']
            rw [if_neg hvz,
              show data.length + 8 + k.length = (data ++ encodeEntry k v).length from by
                rw [hnext, hzero]
                omega]

/-- `load_memory` over an encoded entry sequence succeeds and replays the
entries strictly in file order. -/
theorem load_memory_encode (es : List (Bytes × Option Bytes))
    (h : entriesInRange es = true) :
    load_memory (encodeLog es) = some (replayIdx 0 [] es) := by
  have hlen : es.length ≤ (encodeLog es).length := encodeLog_length_ge es
  have hmain := lmLoop_encode es (encodeLog es).length [] [] h hlen
  simpa [load_memory] using hmain

-- ------------------------------------------------------------------
-- From operation sequences to encoded logs and replayed indexes
-- ------------------------------------------------------------------

theorem opInRange_entry (op : Op) (h : opInRange op = true) :
    entryInRange (opEntry op) = true := by
  cases op with
  | setOp k v =>
      simp [opInRange] at h
      simp [opEntry, entryInRange, valLen, h.1, h.2]
  | delOp k =>
      simp [opInRange, U32] at h
      simp [opEntry, entryInRange, valLen, U32, h]

theorem opGood_inRange (op : Op) (h : opGood op = true) :
    opInRange op = true := by
  cases op with
  | setOp k v =>
      simp [opGood] at h
      simpa [opInRange] using h.1
  | delOp k => simpa [opGood] using h

theorem opsGood_opsInRange (ops : List Op) (h : opsGood ops = true) :
    opsInRange ops = true := by
  rw [opsInRange, List.all_eq_true]
  rw [opsGood, List.all_eq_true] at h
  intro op hop
  exact opGood_inRange op (h op hop)

theorem opsInRange_entries (ops : List Op) (h : opsInRange ops = true) :
    entriesInRange (ops.map opEntry) = true := by
  rw [entriesInRange, List.all_eq_true]
  rw [opsInRange, List.all_eq_true] at h
  intro e he
  obtain ⟨op, hop, rfl⟩ := List.mem_map.mp he
  exact opInRange_entry op (h op hop)

/-- The log after an operation sequence is the previous log plus the
encodings of the appended entries, in operation order. -/
theorem applyOpsFrom_log (ops : List Op) : ∀ s : MiniBitcask,
    (applyOpsFrom s ops).log.data = s.log.data ++ encodeLog (ops.map opEntry) := by
  induction ops with
  | nil =>
      intro s
      simp [applyOpsFrom, encodeLog]
  | cons op rest ih =>
      intro s
      have hstep : applyOpsFrom s (op :: rest) = applyOpsFrom (applyOp s op) rest := rfl
      rw [hstep, ih]
      cases op with
      | setOp k v => simp [applyOp, set, write_one_entry_eq, opEntry, encodeLog]
      | delOp k => simp [applyOp, delete, write_one_entry_eq, opEntry, encodeLog]

/-- For in-range operations with non-empty `set` values, the in-memory
index maintained by `set`/`delete` is exactly the index `load_memory`'s
replay of the appended entries would produce. -/
theorem applyOpsFrom_idx (ops : List Op) : ∀ s : MiniBitcask,
    opsGood ops = true →
    (applyOpsFrom s ops).key_idx =
      replayIdx s.log.data.length s.key_idx (ops.map opEntry) := by
  induction ops with
  | nil =>
      intro s _
      simp [applyOpsFrom, replayIdx]
  | cons op rest ih =>
      intro s h
      have h2 : opGood op = true ∧ opsGood rest = true := by
        simpa [opsGood] using h
      have hstep : applyOpsFrom s (op :: rest) = applyOpsFrom (applyOp s op) rest := rfl
      rw [hstep, ih _ h2.2]
      cases op with
      | setOp k v =>
          have h3 : (k.length < U32 ∧ v.length < U32) ∧ ¬v = [] := by
            simpa [opGood, opInRange] using h2.1
          obtain ⟨⟨hk, hv⟩, hne⟩ := h3
          have hk' : k.length % U32 = k.length := Nat.mod_eq_of_lt hk
          have hvl : vlen32 (some v) = v.length := by
            simp [vlen32, Nat.mod_eq_of_lt hv]
          have hvpos : 0 < v.length := List.length_pos.mpr hne
          have hlen : (encodeEntry k (some v)).length = 8 + k.length + v.length := by
            rw [encodeEntry_length k (some v) (by simpa [valLen] using hv), hvl]
          simp only [applyOp, set, write_one_entry_eq, List.map_cons, opEntry,
            replayIdx, hk', hvl, List.length_append, hlen]
          rw [if_pos hvpos]
          congr 1
          omega
      | delOp k =>
          have hk : k.length < U32 := by
            simpa [opGood, opInRange] using h2.1
          have hk' : k.length % U32 = k.length := Nat.mod_eq_of_lt hk
          have hv0 : vlen32 (none : Option Bytes) = 0 := by simp [vlen32]
          have hlen : (encodeEntry k none).length = 8 + k.length := by
            have h5 := encodeEntry_length k none (by simp [valLen, U32])
            rw [hv0] at h5
            omega
          simp only [applyOp, delete, write_one_entry_eq, List.map_cons, opEntry,
            replayIdx, hk', hv0, List.length_append, hlen]
          rw [if_neg (by simp)]
          congr 1
          omega

-- ------------------------------------------------------------------
-- C2: get results survive close and reopen
-- ------------------------------------------------------------------

/-- **C2, counterexample**: the claim fails as stated.  After the single
operation `set([0], [])` (an empty value), `get([0])` on the open store
returns `Some(empty)`, but reopening the store from the written log bytes
yields `None` for the same key: the zero value length written by the
empty-value `set` is read back as a tombstone. -/
theorem reopen_counterexample :
    get (applyOps [Op.setOp [0] []]) [0] = some (some []) ∧
    (MiniBitcask.new (applyOps [Op.setOp [0] []]).log.data).map
      (fun s2 => get s2 [0]) = some (some none) := by
  decide

/-- **C2, amended**: for every sequence of set/delete operations whose
keys and values fit the 32-bit length columns and whose `set` values are
non-empty, applied to a freshly opened store, closing and reopening a new
store over the same log file gives exactly the same `get` result for
every key. -/
theorem reopen_preserves_get (ops : List Op) (h : opsGood ops = true) (k : Bytes) :
    ∃ s2, MiniBitcask.new (applyOps ops).log.data = some s2 ∧
      get s2 k = get (applyOps ops) k := by
  refine ⟨applyOps ops, ?_, rfl⟩
  have hlog : (applyOps ops).log.data = encodeLog (ops.map opEntry) := by
    simpa [applyOps, emptyStore] using applyOpsFrom_log ops emptyStore
  have hidx : (applyOps ops).key_idx = replayIdx 0 [] (ops.map opEntry) := by
    simpa [applyOps, emptyStore] using applyOpsFrom_idx ops emptyStore h
  have hir : entriesInRange (ops.map opEntry) = true :=
    opsInRange_entries ops (opsGood_opsInRange ops h)
  rw [MiniBitcask.new, hlog, load_memory_encode _ hir]
  simp only [Option.map_some', Option.some.injEq]
  rw [← hidx, ← hlog]

/-- Witness for `reopen_preserves_get` at a concrete operation sequence. -/
theorem reopen_preserves_get_witness :
    opsGood [Op.setOp [1] [2], Op.delOp [1], Op.setOp [3] [4, 5]] = true ∧
    ∃ s2, MiniBitcask.new
        (applyOps [Op.setOp [1] [2], Op.delOp [1], Op.setOp [3] [4, 5]]).log.data =
        some s2 ∧
      get s2 [3] =
        get (applyOps [Op.setOp [1] [2], Op.delOp [1], Op.setOp [3] [4, 5]]) [3] :=
  ⟨by decide, reopen_preserves_get [Op.setOp [1] [2], Op.delOp [1], Op.setOp [3] [4, 5]]
    (by decide) [3]⟩

-- ------------------------------------------------------------------
-- Lookups in a replayed index
-- ------------------------------------------------------------------

/-- Replaying entries that never touch `k` does not change what the
rebuilt index holds for `k`. -/
theorem replay_lookup_frame (k : Bytes) (es : List (Bytes × Option Bytes))
    (hes : ∀ e ∈ es, e.1 ≠ k) :
    ∀ pos idx, idxLookup (replayIdx pos idx es) k = idxLookup idx k := by
  induction es with
  | nil =>
      intro pos idx
      simp [replayIdx]
  | cons e rest ih =>
      obtain ⟨k1, v1⟩ := e
      have hk1 : k1 ≠ k := by
        have h1 := hes (k1, v1) (by simp)
        simpa using h1
      have hrest : ∀ e ∈ rest, e.1 ≠ k := fun e he => hes e (by simp [he])
      intro pos idx
      simp only [replayIdx]
      by_cases h1 : 0 < vlen32 v1
      · rw [if_pos h1, ih hrest, idxLookup_insert_ne _ _ _ _ (fun e => hk1 e.symm)]
      · rw [if_neg h1, ih hrest, idxLookup_remove,
          if_neg (fun e => hk1 e.symm : ¬k = k1)]

/-- After replaying `es1 ++ [entry for k] ++ es2` (with `es2` never
touching `k`), `k` is present in the rebuilt index iff that entry's
written value length is positive: the latest entry for `k` decides. -/
theorem replay_lookup_after (k : Bytes) (v0 : Option Bytes)
    (es2 : List (Bytes × Option Bytes)) (hes2 : ∀ e ∈ es2, e.1 ≠ k)
    (es1 : List (Bytes × Option Bytes)) :
    ∀ pos idx,
      (idxLookup (replayIdx pos idx (es1 ++ (k, v0) :: es2)) k).isSome =
        decide (0 < vlen32 v0) := by
  induction es1 with
  | nil =>
      intro pos idx
      simp only [List.nil_append, replayIdx]
      by_cases h0 : 0 < vlen32 v0
      · rw [if_pos h0, replay_lookup_frame k es2 hes2, idxLookup_insert_self]
        simp [h0]
      · rw [if_neg h0, replay_lookup_frame k es2 hes2, idxLookup_remove, if_pos rfl]
        simp [h0]
  | cons e rest ih =>
      obtain ⟨k1, v1⟩ := e
      intro pos idx
      simp only [List.cons_append, replayIdx]
      by_cases h1 : 0 < vlen32 v1
      · rw [if_pos h1]
        exact ih _ _
      · rw [if_neg h1]
        exact ih _ _

-- ------------------------------------------------------------------
-- C5: rebuild respects file order
-- ------------------------------------------------------------------

/-- **C5**: index reconstruction on open processes the log's entries
strictly in file order, so the latest entry for a key decides its state:
with entries `es1 ++ [tombstone for k] ++ es2` (where `es2` never touches
`k`) the rebuilt index leaves `k` absent, even when `es1` holds a live
entry for `k`; and with `es1 ++ [live entry for k] ++ es2` the rebuilt
index leaves `k` present, even when `es1` holds a tombstone for `k`. -/
theorem rebuild_respects_file_order
    (es1 es2 : List (Bytes × Option Bytes)) (k v : Bytes)
    (h1 : entriesInRange es1 = true) (h2 : entriesInRange es2 = true)
    (hk : k.length < U32) (hv : v.length < U32) (hvne : v ≠ [])
    (hnk : ∀ e ∈ es2, e.1 ≠ k) :
    (∃ idx, load_memory (encodeLog (es1 ++ (k, none) :: es2)) = some idx ∧
        idxLookup idx k = none) ∧
    (∃ idx, load_memory (encodeLog (es1 ++ (k, some v) :: es2)) = some idx ∧
        (idxLookup idx k).isSome = true) := by
  have hk2 : decide (k.length < U32) = true := decide_eq_true hk
  constructor
  · have hirt : entriesInRange (es1 ++ (k, none) :: es2) = true := by
      rw [entriesInRange, List.all_eq_true]
      intro e he
      rcases List.mem_append.mp he with hA | hB
      · exact List.all_eq_true.mp h1 e hA
      · rcases List.mem_cons.mp hB with rfl | hC
        · simp [entryInRange, valLen, U32]
          exact hk
        · exact List.all_eq_true.mp h2 e hC
    refine ⟨_, load_memory_encode _ hirt, ?_⟩
    have hl := replay_lookup_after k none es2 hnk es1 0 []
    rw [show vlen32 (none : Option Bytes) = 0 from by simp [vlen32]] at hl
    simp only [Nat.lt_irrefl, decide_eq_false_iff_not] at hl
    rcases hx : idxLookup (replayIdx 0 [] (es1 ++ (k, none) :: es2)) k with _ | p
    · rfl
    · rw [hx] at hl
      simp at hl
  · have hirt : entriesInRange (es1 ++ (k, some v) :: es2) = true := by
      rw [entriesInRange, List.all_eq_true]
      intro e he
      rcases List.mem_append.mp he with hA | hB
      · exact List.all_eq_true.mp h1 e hA
      · rcases List.mem_cons.mp hB with rfl | hC
        · simp [entryInRange, valLen, hk2, decide_eq_true hv]
        · exact List.all_eq_true.mp h2 e hC
    refine ⟨_, load_memory_encode _ hirt, ?_⟩
    have hl := replay_lookup_after k (some v) es2 hnk es1 0 []
    rw [show vlen32 (some v) = v.length from by
      simp [vlen32, Nat.mod_eq_of_lt hv]] at hl
    rw [hl]
    simp [List.length_pos.mpr hvne]

/-- Witness for `rebuild_respects_file_order` at concrete entry lists. -/
theorem rebuild_respects_file_order_witness :
    entriesInRange [([1], some [5])] = true ∧
    entriesInRange [([2], some [6])] = true ∧
    ([1] : Bytes).length < U32 ∧ ([9] : Bytes).length < U32 ∧
    ([9] : Bytes) ≠ [] ∧ (∀ e ∈ [(([2] : Bytes), some ([6] : Bytes))], e.1 ≠ [1]) ∧
    ((∃ idx, load_memory (encodeLog ([([1], some [5])] ++ ([1], none) ::
          [([2], some [6])])) = some idx ∧ idxLookup idx [1] = none) ∧
     (∃ idx, load_memory (encodeLog ([([1], some [5])] ++ ([1], some [9]) ::
          [([2], some [6])])) = some idx ∧ (idxLookup idx [1]).isSome = true)) :=
  ⟨by decide, by decide, by decide, by decide, by decide, by decide,
    rebuild_respects_file_order [([1], some [5])] [([2], some [6])] [1] [9]
      (by decide) (by decide) (by decide) (by decide) (by decide) (by decide)⟩

-- ------------------------------------------------------------------
-- C9: an empty set value is byte-identical to a tombstone
-- ------------------------------------------------------------------

/-- **C9**: `set(k, v)` with an empty value writes an entry with value
length 0 — byte-identical to the tombstone `delete(k)` writes — so
`get(k)` on the same open store returns `Some(empty)`, yet after closing
and reopening the store over the same log bytes the rebuilt index treats
that entry as a delete and `get(k)` returns `None`. -/
theorem empty_value_behaves_as_tombstone (ops : List Op) (k : Bytes)
    (h : opsInRange ops = true) (hk : k.length < U32) :
    (set (applyOps ops) k []).log.data = (delete (applyOps ops) k).log.data ∧
    get (set (applyOps ops) k []) k = some (some []) ∧
    (MiniBitcask.new (set (applyOps ops) k []).log.data).map
      (fun s2 => get s2 k) = some (some none) := by
  have h0 : vlen32 (some ([] : Bytes)) = 0 := by simp [vlen32]
  have hel : (encodeEntry k (some [])).length = 8 + k.length := by
    have h5 := encodeEntry_length k (some []) (by simp [valLen, U32])
    rw [h0] at h5
    omega
  refine ⟨?_, ?_, ?_⟩
  · have henc : encodeEntry k (some []) = encodeEntry k none := by
      simp [encodeEntry, vlen32]
    simp [set, delete, write_one_entry_eq, henc]
  · have hc : (applyOps ops).log.data.length + 8 + k.length % U32 + 0 ≤
        ((applyOps ops).log.data ++ encodeEntry k (some [])).length := by
      have hml := Nat.mod_le k.length U32
      simp only [List.length_append, hel]
      omega
    have hread : read_value ⟨(applyOps ops).log.data ++ encodeEntry k (some [])⟩
        ((applyOps ops).log.data.length + 8 + k.length % U32) 0 = some [] := by
      simp only [read_value]
      rw [if_pos hc]
      simp
    simp only [set, write_one_entry_eq, get, idxLookup_insert_self, h0, hread]
  · have hlog : (applyOps ops).log.data = encodeLog (ops.map opEntry) := by
      simpa [applyOps, emptyStore] using applyOpsFrom_log ops emptyStore
    have hdata : (set (applyOps ops) k []).log.data =
        encodeLog (ops.map opEntry ++ [(k, some [])]) := by
      simp [set, write_one_entry_eq, hlog, encodeLog_append, encodeLog]
    have hirt : entriesInRange (ops.map opEntry ++ [(k, some [])]) = true := by
      rw [entriesInRange, List.all_eq_true]
      intro e he
      rcases List.mem_append.mp he with hA | hB
      · exact List.all_eq_true.mp (opsInRange_entries ops h) e hA
      · rcases List.mem_cons.mp hB with rfl | hC
        · simp [entryInRange, valLen, U32]
          exact hk
        · simp at hC
    rw [hdata, MiniBitcask.new, load_memory_encode _ hirt]
    simp only [Option.map_some']
    have hlast := replay_lookup_after k (some []) [] (by simp) (ops.map opEntry) 0 []
    rw [h0] at hlast
    simp only [Nat.lt_irrefl, decide_eq_false_iff_not] at hlast
    rcases hx : idxLookup (replayIdx 0 [] (ops.map opEntry ++ [(k, some [])])) k
      with _ | p
    · simp [get, hx]
    · rw [hx] at hlast
      simp at hlast

/-- Witness for `empty_value_behaves_as_tombstone` at a concrete input. -/
theorem empty_value_behaves_as_tombstone_witness :
    opsInRange [Op.setOp [1] [2]] = true ∧ ([1] : Bytes).length < U32 ∧
    ((set (applyOps [Op.setOp [1] [2]]) [1] []).log.data =
        (delete (applyOps [Op.setOp [1] [2]]) [1]).log.data ∧
      get (set (applyOps [Op.setOp [1] [2]]) [1] []) [1] = some (some []) ∧
      (MiniBitcask.new (set (applyOps [Op.setOp [1] [2]]) [1] []).log.data).map
        (fun s2 => get s2 [1]) = some (some none)) :=
  ⟨by decide, by decide,
    empty_value_behaves_as_tombstone [Op.setOp [1] [2]] [1] (by decide) (by decide)⟩

-- ------------------------------------------------------------------
-- C1: set/get round-trip
-- ------------------------------------------------------------------
-- ------------------------------------------------------------------
-- ------------------------------------------------------------------

/-- **C1**: for every key `k` and value `v` (sizes fitting the 32-bit
length columns, the design's stated scope), calling `set(k, v)` and then
immediately `get(k)` on the same open store returns `Some(v)`. -/
theorem set_get_roundtrip (s : MiniBitcask) (key val : Bytes)
    (hk : key.length < U32) (hv : val.length < U32) :
    get (set s key val) key = some (some val) := by
  have hk' : key.length % U32 = key.length := Nat.mod_eq_of_lt hk
  have hread : read_value ⟨s.log.data ++ encodeEntry key (some val)⟩
      (s.log.data.length + 8 + key.length % U32) (vlen32 (some val)) = some val := by
    have hvl : vlen32 (some val) = val.length := by
      simp [vlen32, Nat.mod_eq_of_lt hv]
    rw [encodeEntry_some key val hv, hk', hvl]
    refine read_value_of_eq_append _
      (s.log.data ++ (be32 key.length ++ be32 val.length ++ key)) val _ ?_ ?_
    · simp
    · simp [be32_length]
      omega
  simp [set, write_one_entry_eq, get, idxLookup_insert_self, hread]

/-- Witness for `set_get_roundtrip` at a concrete store and input. -/
theorem set_get_roundtrip_witness :
    ([1, 2] : Bytes).length < U32 ∧ ([7] : Bytes).length < U32 ∧
    get (set emptyStore [1, 2] [7]) [1, 2] = some (some [7]) :=
  ⟨by decide, by decide,
    set_get_roundtrip emptyStore [1, 2] [7] (by decide) (by decide)⟩

-- ------------------------------------------------------------------
-- C7: the exact bytes and return value of write_one_entry
-- ------------------------------------------------------------------

/-- **C7**: `write_one_entry` appends, at the previous end of file,
exactly the key length as big-endian u32, the value length as big-endian
u32 (`0` when the value is absent), the key bytes, then the value bytes
(none when the value length is 0), with no padding, and returns
`(previous end of file + 8 + key length, value length)`.  (Key and value
sized for the 32-bit length columns.) -/
theorem write_one_entry_spec (log : Log) (key : Bytes) (val : Option Bytes)
    (hk : key.length < U32) (hv : valLen val < U32) :
    write_one_entry log key val =
      (⟨log.data ++ be32 key.length ++ be32 (valLen val) ++ key ++ valBytes val⟩,
        log.data.length + 8 + key.length, valLen val) := by
  have hk' : key.length % U32 = key.length := Nat.mod_eq_of_lt hk
  rw [write_one_entry_eq]
  rcases val with _ | v
  · simp [encodeEntry_none, valLen, valBytes, vlen32, hk']
  · have hv' : v.length < U32 := hv
    simp [encodeEntry_some key v hv', valLen, valBytes, vlen32, hk',
      Nat.mod_eq_of_lt hv']

/-- Witness for `write_one_entry_spec` at a concrete input. -/
theorem write_one_entry_spec_witness :
    ([1, 2] : Bytes).length < U32 ∧ valLen (some ([3] : Bytes)) < U32 ∧
    write_one_entry ⟨[9]⟩ [1, 2] (some [3]) =
      (⟨[9] ++ be32 ([1, 2] : Bytes).length ++ be32 (valLen (some ([3] : Bytes))) ++
          [1, 2] ++ valBytes (some [3])⟩,
        ([9] : Bytes).length + 8 + ([1, 2] : Bytes).length, valLen (some ([3] : Bytes))) :=
  ⟨by decide, by decide,
    write_one_entry_spec ⟨[9]⟩ [1, 2] (some [3]) (by decide) (by decide)⟩

-- ------------------------------------------------------------------
-- C8: concrete sizes of the set/delete/merge scenario
-- ------------------------------------------------------------------

/-- The key "CQM" of the source's tests. -/
def cqmKey : Bytes := [67, 81, 77]

/-- The value "handsome" of the source's tests. -/
def handsomeVal : Bytes := [104, 97, 110, 100, 115, 111, 109, 101]

/-- **C8, counterexample**: the claim's byte counts are wrong.  The entry
appended by `set("CQM", "handsome")` is 19 bytes long (8 header + 3 key +
8 value), not 17, and after `delete("CQM")` the log holds 30 bytes
(19 + 11), not 28. -/
theorem entry_size_counterexample :
    (set emptyStore cqmKey handsomeVal).log.data.length = 19 ∧ (19 : Nat) ≠ 17 ∧
    (delete (set emptyStore cqmKey handsomeVal) cqmKey).log.data.length = 30 ∧
    (30 : Nat) ≠ 28 := by
  decide

/-- **C8, amended**: starting from an empty store,
`set("CQM", "handsome")` appends a 19-byte entry, the subsequent
`delete("CQM")` appends an 11-byte tombstone bringing the log to 30
bytes total, and a following `merge()` leaves the log file with
length 0. -/
theorem set_delete_merge_sizes :
    (set emptyStore cqmKey handsomeVal).log.data.length = 19 ∧
    (delete (set emptyStore cqmKey handsomeVal) cqmKey).log.data.length = 30 ∧
    (merge (delete (set emptyStore cqmKey handsomeVal) cqmKey)).map
      (fun s2 => s2.log.data.length) = some 0 := by
  decide

-- ------------------------------------------------------------------
-- Index membership lemmas and the well-formedness invariant
-- ------------------------------------------------------------------

theorem mem_idxRemove (idx : KeyIdx) (k : Bytes) (e : Bytes × Nat × Nat)
    (h : e ∈ idxRemove idx k) : e ∈ idx := by
  induction idx with
  | nil => simp [idxRemove] at h
  | cons a rest ih =>
      obtain ⟨a1, apl⟩ := a
      by_cases hak : a1 = k
      · simp only [idxRemove, if_pos hak] at h
        exact List.mem_cons_of_mem _ (ih h)
      · simp only [idxRemove, if_neg hak, List.mem_cons] at h
        rcases h with rfl | h
        · exact List.mem_cons_self _ _
        · exact List.mem_cons_of_mem _ (ih h)

theorem mem_idxInsert (idx : KeyIdx) (k : Bytes) (pl : Nat × Nat)
    (e : Bytes × Nat × Nat) (h : e ∈ idxInsert idx k pl) :
    e = (k, pl) ∨ e ∈ idxRemove idx k := by
  simpa [idxInsert] using h

theorem idxRemove_not_mem_fst (idx : KeyIdx) (k : Bytes) :
    k ∉ (idxRemove idx k).map Prod.fst := by
  induction idx with
  | nil => simp [idxRemove]
  | cons a rest ih =>
      obtain ⟨a1, apl⟩ := a
      by_cases hak : a1 = k
      · simpa [idxRemove, hak] using ih
      · simp [idxRemove, hak, ih]
        exact fun e => hak e.symm

theorem mem_map_fst_idxRemove (idx : KeyIdx) (k x : Bytes)
    (h : x ∈ (idxRemove idx k).map Prod.fst) : x ∈ idx.map Prod.fst := by
  obtain ⟨e, he, rfl⟩ := List.mem_map.mp h
  exact List.mem_map.mpr ⟨e, mem_idxRemove idx k e he, rfl⟩

theorem idxRemove_nodup (idx : KeyIdx) (k : Bytes)
    (h : (idx.map Prod.fst).Nodup) : ((idxRemove idx k).map Prod.fst).Nodup := by
  induction idx with
  | nil => simp [idxRemove]
  | cons a rest ih =>
      obtain ⟨a1, apl⟩ := a
      rw [List.map_cons, List.nodup_cons] at h
      by_cases hak : a1 = k
      · simp only [idxRemove, if_pos hak]
        exact ih h.2
      · simp only [idxRemove, if_neg hak, List.map_cons, List.nodup_cons]
        exact ⟨fun hmem => h.1 (mem_map_fst_idxRemove rest k a1 hmem), ih h.2⟩

theorem idxLookup_eq_none_of_not_mem (idx : KeyIdx) (k : Bytes)
    (h : k ∉ idx.map Prod.fst) : idxLookup idx k = none := by
  induction idx with
  | nil => simp [idxLookup]
  | cons a rest ih =>
      obtain ⟨a1, apl⟩ := a
      simp only [List.map_cons, List.mem_cons] at h
      push_neg at h
      rw [idxLookup, if_neg (fun e => h.1 e.symm)]
      exact ih h.2

theorem idxLookup_mem (idx : KeyIdx) (k : Bytes) (pl : Nat × Nat)
    (h : idxLookup idx k = some pl) : (k, pl) ∈ idx := by
  induction idx with
  | nil => simp [idxLookup] at h
  | cons a rest ih =>
      obtain ⟨a1, apl⟩ := a
      by_cases hak : a1 = k
      · subst hak
        rw [idxLookup, if_pos rfl] at h
        obtain rfl : apl = pl := by simpa using h
        exact List.mem_cons_self _ _
      · rw [idxLookup, if_neg hak] at h
        exact List.mem_cons_of_mem _ (ih h)

/-- Well-formed store: every index entry has a 32-bit key length, points
inside the log file, and carries a 32-bit value length; index keys are
unique.  Every store reachable by in-range operations satisfies this. -/
def IdxWF (s : MiniBitcask) : Prop :=
  (∀ e ∈ s.key_idx,
      e.1.length < U32 ∧ e.2.1 + e.2.2 ≤ s.log.data.length ∧ e.2.2 < U32) ∧
  (s.key_idx.map Prod.fst).Nodup

theorem idxWF_empty : IdxWF emptyStore := by
  constructor
  · intro e he
    simp [emptyStore] at he
  · simp [emptyStore]

theorem idxWF_applyOp (s : MiniBitcask) (op : Op) (hop : opInRange op = true)
    (h : IdxWF s) : IdxWF (applyOp s op) := by
  obtain ⟨hb, hnd⟩ := h
  cases op with
  | setOp k v =>
      have hkv : k.length < U32 ∧ v.length < U32 := by simpa [opInRange] using hop
      have hvl : vlen32 (some v) = v.length := by
        simp [vlen32, Nat.mod_eq_of_lt hkv.2]
      have hencl : (encodeEntry k (some v)).length = 8 + k.length + v.length := by
        have h6 := encodeEntry_length k (some v) (by simpa [valLen] using hkv.2)
        rw [hvl] at h6
        exact h6
      constructor
      · intro e he
        simp only [applyOp, set, write_one_entry_eq] at he ⊢
        rcases mem_idxInsert _ _ _ _ he with rfl | hmem
        · refine ⟨hkv.1, ?_, ?_⟩
          · simp only [List.length_append, hencl, hvl]
            have hml := Nat.mod_le k.length U32
            omega
          · simpa [hvl] using hkv.2
        · have he2 := hb e (mem_idxRemove _ _ _ hmem)
          refine ⟨he2.1, ?_, he2.2.2⟩
          simp only [List.length_append]
          omega
      · simp only [applyOp, set, write_one_entry_eq, idxInsert, List.map_cons,
          List.nodup_cons]
        exact ⟨idxRemove_not_mem_fst _ _, idxRemove_nodup _ _ hnd⟩
  | delOp k =>
      constructor
      · intro e he
        simp only [applyOp, delete, write_one_entry_eq] at he ⊢
        have he2 := hb e (mem_idxRemove _ _ _ he)
        refine ⟨he2.1, ?_, he2.2.2⟩
        simp only [List.length_append]
        omega
      · simp only [applyOp, delete, write_one_entry_eq]
        exact idxRemove_nodup _ _ hnd

theorem applyOpsFrom_wf (ops : List Op) : ∀ s : MiniBitcask,
    opsInRange ops = true → IdxWF s → IdxWF (applyOpsFrom s ops) := by
  induction ops with
  | nil =>
      intro s _ h
      exact h
  | cons op rest ih =>
      intro s h hwf
      have h2 : opInRange op = true ∧ opsInRange rest = true := by
        simpa [opsInRange] using h
      exact ih (applyOp s op) h2.2 (idxWF_applyOp s op h2.1 hwf)

theorem applyOps_wf (ops : List Op) (h : opsInRange ops = true) :
    IdxWF (applyOps ops) :=
  applyOpsFrom_wf ops emptyStore h idxWF_empty

-- ------------------------------------------------------------------
-- C3: merge preserves gets and compacts the log exactly
-- ------------------------------------------------------------------

/-- Sum of `8 + key length + value length` over the index's entries. -/
def idxTotalSize : KeyIdx → Nat
  | [] => 0
  | (k, _, l) :: rest => 8 + k.length + l + idxTotalSize rest

/-- Reading back a value of known length appended at the end of the log
as a fresh entry. -/
theorem read_value_entry_end (d k v : Bytes) (l : Nat) (hk : k.length < U32)
    (hv : v.length < U32) (hl : v.length = l) :
    read_value ⟨d ++ encodeEntry k (some v)⟩ (d.length + 8 + k.length) l = some v := by
  subst hl
  rw [encodeEntry_some k v hv, Nat.mod_eq_of_lt hk]
  refine read_value_of_eq_append _ (d ++ (be32 k.length ++ be32 v.length ++ k)) v _ ?_ ?_
  · simp
  · simp [be32_length]
    omega

/-- The merge loop: given in-bounds, unique-keyed entries of the old
index, it succeeds, the new log's growth is exactly the summed entry
sizes, and the (new index, new log) pair resolves every listed key to the
bytes its old (offset, length) pair denotes while leaving other keys'
resolution as in the accumulators. -/
theorem mergeGo_spec (oldlog : Log) :
    ∀ entries : KeyIdx,
      (∀ e ∈ entries,
          e.1.length < U32 ∧ e.2.1 + e.2.2 ≤ oldlog.data.length ∧ e.2.2 < U32) →
      (entries.map Prod.fst).Nodup →
      ∀ (nl : Log) (nidx : KeyIdx),
        (∀ e ∈ nidx, e.2.1 + e.2.2 ≤ nl.data.length) →
        ∃ nl2 nidx2, mergeGo oldlog entries nl nidx = some (nl2, nidx2) ∧
          nl2.data.length = nl.data.length + idxTotalSize entries ∧
          ∀ k, get ⟨nidx2, nl2⟩ k =
            (match idxLookup entries k with
             | some (p, l) => some (some ((oldlog.data.drop p).take l))
             | none => get ⟨nidx, nl⟩ k) := by
  intro entries
  induction entries with
  | nil =>
      intro _ _ nl nidx hacc
      refine ⟨nl, nidx, rfl, by simp [idxTotalSize], ?_⟩
      intro k
      simp [idxLookup]
  | cons e0 rest ih =>
      obtain ⟨k0, p0, l0⟩ := e0
      intro hb hnd nl nidx hacc
      have hk0 : k0.length < U32 := (hb (k0, p0, l0) (by simp)).1
      have hpl : p0 + l0 ≤ oldlog.data.length := (hb (k0, p0, l0) (by simp)).2.1
      have hl0 : l0 < U32 := (hb (k0, p0, l0) (by simp)).2.2
      have hbr : ∀ e ∈ rest,
          e.1.length < U32 ∧ e.2.1 + e.2.2 ≤ oldlog.data.length ∧ e.2.2 < U32 :=
        fun e he => hb e (by simp [he])
      have hnd2 : (k0 ∉ rest.map Prod.fst) ∧ (rest.map Prod.fst).Nodup := by
        rw [List.map_cons, List.nodup_cons] at hnd
        exact hnd
      have hk0' : k0.length % U32 = k0.length := Nat.mod_eq_of_lt hk0
      have hv0len : ((oldlog.data.drop p0).take l0).length = l0 := by
        simp only [List.length_take, List.length_drop]
        omega
      have hv0lt : ((oldlog.data.drop p0).take l0).length < U32 := by
        rw [hv0len]
        exact hl0
      have hv0 : read_value oldlog p0 l0 = some ((oldlog.data.drop p0).take l0) := by
        simp [read_value, hpl]
      have hvl32 : vlen32 (some ((oldlog.data.drop p0).take l0)) = l0 := by
        simp [vlen32, hv0len, Nat.mod_eq_of_lt hl0]
      have hencl : (encodeEntry k0 (some ((oldlog.data.drop p0).take l0))).length =
          8 + k0.length + l0 := by
        have h6 := encodeEntry_length k0 (some ((oldlog.data.drop p0).take l0))
          (by simpa [valLen, hv0len] using hl0)
        rw [hvl32] at h6
        exact h6
      have hacc1 : ∀ e ∈ idxInsert nidx k0 (nl.data.length + 8 + k0.length, l0),
          e.2.1 + e.2.2 ≤
            (nl.data ++ encodeEntry k0 (some ((oldlog.data.drop p0).take l0))).length := by
        intro e he
        rcases mem_idxInsert _ _ _ _ he with rfl | hmem
        · simp only [List.length_append, hencl]
          omega
        · have h7 := hacc e (mem_idxRemove _ _ _ hmem)
          simp only [List.length_append]
          omega
      obtain ⟨nl2, nidx2, hrun, hlen, hget⟩ := ih hbr hnd2.2
        ⟨nl.data ++ encodeEntry k0 (some ((oldlog.data.drop p0).take l0))⟩
        (idxInsert nidx k0 (nl.data.length + 8 + k0.length, l0)) hacc1
      refine ⟨nl2, nidx2, ?_, ?_, ?_⟩
      · simp only [mergeGo, hv0, write_one_entry_eq, hvl32, hk0']
        exact hrun
      · rw [hlen]
        simp only [List.length_append, hencl, idxTotalSize]
        omega
      · intro k
        rw [hget k]
        by_cases hkk : k0 = k
        · subst hkk
          rw [show idxLookup ((k0, p0, l0) :: rest) k0 = some (p0, l0) from by
            simp [idxLookup]]
          rw [idxLookup_eq_none_of_not_mem rest k0 hnd2.1]
          have hread := read_value_entry_end nl.data k0
            ((oldlog.data.drop p0).take l0) l0 hk0 hv0lt hv0len
          simp [get, idxLookup_insert_self, hread]
        · rw [show idxLookup ((k0, p0, l0) :: rest) k = idxLookup rest k from by
            rw [idxLookup, if_neg hkk]]
          rcases hr : idxLookup rest k with _ | pl
          · simp only [get, idxLookup_insert_ne _ _ _ _ (fun e => hkk e.symm)]
            rcases hq : idxLookup nidx k with _ | ⟨p, l⟩
            · rfl
            · have hb2 : p + l ≤ nl.data.length := hacc _ (idxLookup_mem _ _ _ hq)
              have hframe : read_value
                  ⟨nl.data ++ encodeEntry k0 (some ((oldlog.data.drop p0).take l0))⟩ p l =
                  read_value nl p l :=
                read_value_append nl.data _ p l hb2
              simp only [hq, hframe]
          · rfl

/-- **C3**: for every store state reached by a sequence of in-range
set/delete operations, `merge()` succeeds, changes no subsequent
`get(k)`, and leaves the log with length exactly the sum of
`8 + len(key) + len(value)` over the keys present in the index — in
particular length 0 when no key is live. -/
theorem merge_preserves_get_and_size (ops : List Op)
    (h : opsInRange ops = true) :
    ∃ s2, merge (applyOps ops) = some s2 ∧
      (∀ k, get s2 k = get (applyOps ops) k) ∧
      s2.log.data.length = idxTotalSize (applyOps ops).key_idx ∧
      ((applyOps ops).key_idx = [] → s2.log.data.length = 0) := by
  obtain ⟨hb, hnd⟩ := applyOps_wf ops h
  obtain ⟨nl2, nidx2, hrun, hlen, hget⟩ := mergeGo_spec (applyOps ops).log
    (applyOps ops).key_idx hb hnd ⟨[]⟩ [] (by simp)
  refine ⟨⟨nidx2, nl2⟩, by simp [merge, hrun], ?_, by simpa using hlen, ?_⟩
  · intro k
    rw [hget k]
    rcases hx : idxLookup (applyOps ops).key_idx k with _ | ⟨p, l⟩
    · simp [get, idxLookup, hx]
    · have hmem := idxLookup_mem _ _ _ hx
      have hbd := (hb _ hmem).2.1
      simp only [get, hx]
      rw [show read_value (applyOps ops).log p l =
          some (((applyOps ops).log.data.drop p).take l) from by
        simp [read_value, hbd]]
  · intro hempty
    rw [hlen, hempty]
    simp [idxTotalSize]

/-- Witness for `merge_preserves_get_and_size` at a concrete sequence. -/
theorem merge_preserves_get_and_size_witness :
    opsInRange [Op.setOp [1] [2], Op.setOp [1] [3, 4], Op.delOp [5]] = true ∧
    ∃ s2, merge (applyOps [Op.setOp [1] [2], Op.setOp [1] [3, 4], Op.delOp [5]]) =
        some s2 ∧
      (∀ k, get s2 k =
        get (applyOps [Op.setOp [1] [2], Op.setOp [1] [3, 4], Op.delOp [5]]) k) ∧
      s2.log.data.length =
        idxTotalSize (applyOps [Op.setOp [1] [2], Op.setOp [1] [3, 4], Op.delOp [5]]).key_idx ∧
      ((applyOps [Op.setOp [1] [2], Op.setOp [1] [3, 4], Op.delOp [5]]).key_idx = [] →
        s2.log.data.length = 0) :=
  ⟨by decide, merge_preserves_get_and_size
    [Op.setOp [1] [2], Op.setOp [1] [3, 4], Op.delOp [5]] (by decide)⟩

-- ------------------------------------------------------------------
-- C10: mutations of one key do not disturb gets of other keys
-- ------------------------------------------------------------------

/-- **C10**: for distinct keys `k2 ≠ k`, a successful `set(k, v)` or
`delete(k)` on a store reached by in-range operations leaves the result
of a subsequent `get(k2)` unchanged: only `k`'s index entry is touched,
and the appended bytes do not disturb reads at existing offsets. -/
theorem mutation_frame (ops : List Op) (k k2 v : Bytes)
    (h : opsInRange ops = true) (hne : k2 ≠ k) :
    get (set (applyOps ops) k v) k2 = get (applyOps ops) k2 ∧
    get (delete (applyOps ops) k) k2 = get (applyOps ops) k2 := by
  obtain ⟨hb, _⟩ := applyOps_wf ops h
  constructor
  · simp only [set, write_one_entry_eq, get,
      idxLookup_insert_ne _ _ _ _ hne]
    rcases hq : idxLookup (applyOps ops).key_idx k2 with _ | ⟨p, l⟩
    · rfl
    · have hb2 : p + l ≤ (applyOps ops).log.data.length :=
        (hb _ (idxLookup_mem _ _ _ hq)).2.1
      have hframe : read_value
          ⟨(applyOps ops).log.data ++ encodeEntry k (some v)⟩ p l =
          read_value (applyOps ops).log p l :=
        read_value_append (applyOps ops).log.data _ p l hb2
      simp only [hq, hframe]
  · simp only [delete, write_one_entry_eq, get, idxLookup_remove, if_neg hne]
    rcases hq : idxLookup (applyOps ops).key_idx k2 with _ | ⟨p, l⟩
    · rfl
    · have hb2 : p + l ≤ (applyOps ops).log.data.length :=
        (hb _ (idxLookup_mem _ _ _ hq)).2.1
      have hframe : read_value
          ⟨(applyOps ops).log.data ++ encodeEntry k none⟩ p l =
          read_value (applyOps ops).log p l :=
        read_value_append (applyOps ops).log.data _ p l hb2
      simp only [hq, hframe]

/-- Witness for `mutation_frame` at concrete keys. -/
theorem mutation_frame_witness :
    opsInRange [Op.setOp [2] [3]] = true ∧ (([2] : Bytes) ≠ [1]) ∧
    (get (set (applyOps [Op.setOp [2] [3]]) [1] [4]) [2] =
        get (applyOps [Op.setOp [2] [3]]) [2] ∧
      get (delete (applyOps [Op.setOp [2] [3]]) [1]) [2] =
        get (applyOps [Op.setOp [2] [3]]) [2]) :=
  ⟨by decide, by decide,
    mutation_frame [Op.setOp [2] [3]] [1] [2] [4] (by decide) (by decide)⟩

-- ------------------------------------------------------------------
-- C6: a failed append leaves the index untouched
-- ------------------------------------------------------------------

/-- `Log::write_one_entry` under I/O fault injection.  `fail = some (j, e)`
models the buffered append failing with OS error `e` after only the first
`j` bytes of the entry reached the file (§7: a torn append may leave
trailing garbage); `fail = none` is the fault-free run. -/
def write_one_entryF (fail : Option (Nat × Nat)) (log : Log) (key : Bytes)
    (val : Option Bytes) : Log × Except Nat (Nat × Nat) :=
  match fail with
  | some (j, e) => (⟨log.data ++ (encodeEntry key val).take j⟩, Except.error e)
  | none =>
      let r := write_one_entry log key val
      (r.1, Except.ok r.2)

/-- `MiniBitcask::set` with the fault-injected append: the `?` operator
returns the error before `key_idx.insert` runs. -/
def setF (fail : Option (Nat × Nat)) (s : MiniBitcask) (key val : Bytes) :
    MiniBitcask × Except Nat Unit :=
  match write_one_entryF fail s.log key (some val) with
  | (log2, Except.error e) => (⟨s.key_idx, log2⟩, Except.error e)
  | (log2, Except.ok r) => (⟨idxInsert s.key_idx key r, log2⟩, Except.ok ())

/-- `MiniBitcask::delete` with the fault-injected append: the `?` operator
returns the error before `key_idx.remove` runs. -/
def deleteF (fail : Option (Nat × Nat)) (s : MiniBitcask) (key : Bytes) :
    MiniBitcask × Except Nat Unit :=
  match write_one_entryF fail s.log key none with
  | (log2, Except.error e) => (⟨s.key_idx, log2⟩, Except.error e)
  | (log2, Except.ok _) => (⟨idxRemove s.key_idx key, log2⟩, Except.ok ())

/-- The fault-free runs coincide with the plain model. -/
theorem setF_none (s : MiniBitcask) (key val : Bytes) :
    setF none s key val = (set s key val, Except.ok ()) := rfl

theorem deleteF_none (s : MiniBitcask) (key : Bytes) :
    deleteF none s key = (delete s key, Except.ok ()) := rfl

/-- **C6**: if the log append performed by `set(k, v)` or `delete(k)`
fails with an I/O error — here injected as error `e` after `j` bytes of
the entry reached the file — the operation returns that error and the
in-memory index is left exactly as it was before the call, even though
the log file may have grown by a partial entry. -/
theorem failed_append_leaves_index (j e : Nat) (s : MiniBitcask) (k v : Bytes) :
    (setF (some (j, e)) s k v).2 = Except.error e ∧
    (setF (some (j, e)) s k v).1.key_idx = s.key_idx ∧
    (deleteF (some (j, e)) s k).2 = Except.error e ∧
    (deleteF (some (j, e)) s k).1.key_idx = s.key_idx :=
  ⟨rfl, rfl, rfl, rfl⟩

-- ------------------------------------------------------------------
-- C4: merge's path handling, modelled over a small file system
-- ------------------------------------------------------------------

/-- A file path: everything before the extension (directories plus file
stem) and the optional extension. -/
structure FPath where
  stem : String
  ext : Option String
deriving DecidableEq

/-- `PathBuf::set_extension`: replaces any existing extension. -/
def set_extension (p : FPath) (e : String) : FPath := ⟨p.stem, some e⟩

/-- `MERGE_FILE_TEMP_EXT` from the source. -/
def MERGE_FILE_TEMP_EXT : String := "merge_ext"

/-- A POSIX-flavoured file system: directory entries map paths to inodes
and inodes hold file contents.  Open descriptors (a `Log`'s `file`) refer
to inodes, so a rename never redirects an already-open descriptor. -/
structure FS where
  dir : List (FPath × Nat)
  files : List (Nat × Bytes)
  next : Nat
deriving DecidableEq

def dirLookup : List (FPath × Nat) → FPath → Option Nat
  | [], _ => none
  | (q, i) :: rest, p => if q = p then some i else dirLookup rest p

def dirRemove : List (FPath × Nat) → FPath → List (FPath × Nat)
  | [], _ => []
  | (q, i) :: rest, p =>
      if q = p then dirRemove rest p else (q, i) :: dirRemove rest p

def inoLookup : List (Nat × Bytes) → Nat → Option Bytes
  | [], _ => none
  | (j, d) :: rest, i => if j = i then some d else inoLookup rest i

def inoWrite : List (Nat × Bytes) → Nat → Bytes → List (Nat × Bytes)
  | [], _, _ => []
  | (j, d) :: rest, i, d2 =>
      if j = i then (j, d2) :: rest else (j, d) :: inoWrite rest i d2

/-- A `Log` at the file-system level: the open descriptor (inode) and the
`path` field the source keeps next to it. -/
structure LogFS where
  ino : Nat
  path : FPath
deriving DecidableEq

/-- `Log::new`: open the file at `path` read/write, creating an empty one
if absent (`create(true)`, no truncation), and remember `path`. -/
def logNewFS (fs : FS) (path : FPath) : FS × LogFS :=
  match dirLookup fs.dir path with
  | some i => (fs, ⟨i, path⟩)
  | none =>
      ({ dir := (path, fs.next) :: fs.dir,
         files := (fs.next, []) :: fs.files,
         next := fs.next + 1 }, ⟨fs.next, path⟩)

/-- `std::fs::rename(src, dst)`: `dst` now names `src`'s inode and `src`'s
entry disappears; file contents and open descriptors are untouched.
Fails when `src` has no entry.  (Renaming a path onto itself succeeds and
changes nothing, as on Linux.) -/
def renameFS (fs : FS) (src dst : FPath) : Option FS :=
  match dirLookup fs.dir src with
  | none => none
  | some i =>
      some { fs with dir := (dst, i) :: dirRemove (dirRemove fs.dir src) dst }

/-- The store over the file system. -/
structure StoreFS where
  key_idx : KeyIdx
  log : LogFS
deriving DecidableEq

/-- `MiniBitcask::new` at the file-system level. -/
def newStoreFS (fs : FS) (path : FPath) : Option (FS × StoreFS) :=
  match logNewFS fs path with
  | (fs1, log) =>
      match inoLookup fs1.files log.ino with
      | none => none
      | some data =>
          match load_memory data with
          | none => none
          | some idx => some (fs1, ⟨idx, log⟩)

/-- `MiniBitcask::set` at the file-system level: append through the open
descriptor. -/
def setFS (fs : FS) (s : StoreFS) (key val : Bytes) : Option (FS × StoreFS) :=
  match inoLookup fs.files s.log.ino with
  | none => none
  | some data =>
      match write_one_entry ⟨data⟩ key (some val) with
      | (log2, val_pos, val_len) =>
          some ({ fs with files := inoWrite fs.files s.log.ino log2.data },
            ⟨idxInsert s.key_idx key (val_pos, val_len), s.log⟩)

/-- The merge loop at the file-system level: read each live value through
the old descriptor, append it through the new one. -/
def mergeGoFS (oldIno newIno : Nat) :
    FS → KeyIdx → KeyIdx → Option (FS × KeyIdx)
  | fs, [], nidx => some (fs, nidx)
  | fs, (key, val_pos, val_len) :: rest, nidx =>
      match inoLookup fs.files oldIno with
      | none => none
      | some oldData =>
          match read_value ⟨oldData⟩ val_pos val_len with
          | none => none
          | some v =>
              match inoLookup fs.files newIno with
              | none => none
              | some newData =>
                  match write_one_entry ⟨newData⟩ key (some v) with
                  | (log2, p2, l2) =>
                      mergeGoFS oldIno newIno
                        { fs with files := inoWrite fs.files newIno log2.data }
                        rest (idxInsert nidx key (p2, l2))

/-- `MiniBitcask::merge` at the file-system level: open a new `Log` at
`self.log.path` with the extension set to `"merge_ext"`, rewrite the live
entries into it, `rename(new_log.path, self.log.path)`, then swap in the
new log handle — whose `path` field keeps the temporary path — and the
new index. -/
def mergeFS (fs : FS) (s : StoreFS) : Option (FS × StoreFS) :=
  match logNewFS fs (set_extension s.log.path MERGE_FILE_TEMP_EXT) with
  | (fs1, new_log) =>
      match mergeGoFS s.log.ino new_log.ino fs1 s.key_idx [] with
      | none => none
      | some (fs2, nidx) =>
          match renameFS fs2 new_log.path s.log.path with
          | none => none
          | some fs3 => some (fs3, ⟨nidx, new_log⟩)

/-- The file contents found at a path. -/
def fsFileAt (fs : FS) (p : FPath) : Option Bytes :=
  match dirLookup fs.dir p with
  | none => none
  | some i => inoLookup fs.files i

/-- An empty directory. -/
def emptyFS : FS := ⟨[], [], 0⟩

/-- The C4 scenario: open a store at the extensionless path `log` in an
empty directory, set a key, merge, overwrite the key, merge a second
time. -/
def mergeTwiceRun : Option (FS × StoreFS) :=
  (newStoreFS emptyFS ⟨"log", none⟩).bind fun r1 =>
  (setFS r1.1 r1.2 [65] [66]).bind fun r2 =>
  (mergeFS r2.1 r2.2).bind fun r3 =>
  (setFS r3.1 r3.2 [65] [67]).bind fun r4 =>
  mergeFS r4.1 r4.2

/-- **C4** (evaluating the code at the failing input): after the first
merge the store's `Log` keeps the temporary path `log.merge_ext`, so the
second merge computes the same temporary path, writes the live entries to
a fresh file there, and renames that file onto itself.  After the second
merge the original path `log` still holds the stale pre-merge log (both
entries for the key), the live single-entry merged log sits at
`log.merge_ext`, and the store's `Log` path is `log.merge_ext` — not the
original path, contradicting the claim that every merge commits the live
data back to the original path `p`. -/
theorem second_merge_misplaces_live_file :
    mergeTwiceRun.map (fun r =>
      (fsFileAt r.1 ⟨"log", none⟩,
       fsFileAt r.1 ⟨"log", some "merge_ext"⟩,
       r.2.log.path)) =
    some (some (encodeLog [([65], some [66]), ([65], some [67])]),
          some (encodeLog [([65], some [67])]),
          ⟨"log", some "merge_ext"⟩) ∧
    (⟨"log", some "merge_ext"⟩ : FPath) ≠ ⟨"log", none⟩ := by
  constructor
  · decide
  · decide

end Bitcask
